import Mathlib

/-!
Verification of the simple-index-db synchronization core.

This file shallowly embeds the sync/merge engine of the repository:

* `src/simple_index_db/db.py` — wheel-filename parsing (`Wheel.from_file`,
  `BuildTag.from_str`), the per-kind identity caches (`TagCache` plus the
  `from_str` classmethods), and the project merge (`Project.from_info`,
  `Project.update_from_info`);
* `src/simple_index_db/main.py` — name normalization (`normalize`), the diff
  planner (`find_projects_to_update`), the fetch pipeline and writer loop
  (`get_project_info`, `process_updates`);
* `src/simple_index_db/pypi_client.py` — response validation
  (`PyPIClient.check_meta`, `PyPIClient.get_project`).

Python strings are modelled as `String`/`List Char`, integers as `Nat`
(serials and row ids are non-negative), dictionaries as association lists,
sets as lists considered up to membership, raised exceptions as `Except`,
and the thread/queue pipeline as a small-step transition relation.
-/

namespace SimpleIndexDB

/-! ### Character and string helpers -/

/-- Character class `[-_.]` of the normalization regex in `main.normalize`. -/
def isSepChar (c : Char) : Bool :=
  c = '-' || c = '_' || c = '.'

/-- ASCII lower-casing of one character, as `str.lower` acts on the ASCII
names handled by the index. -/
def lowerChar (c : Char) : Char :=
  if 65 ≤ c.toNat ∧ c.toNat ≤ 90 then Char.ofNat (c.toNat + 32) else c

/-- Collapse every run of `-`, `_`, `.` to a single `-`, the effect of
`re.sub(r"[-_.]+", "-", name)`.  The boolean flag records whether the
previous character belonged to a separator run. -/
def collapseSep : Bool → List Char → List Char
  | _, [] => []
  | prevSep, c :: rest =>
    if isSepChar c then
      if prevSep then collapseSep true rest
      else '-' :: collapseSep true rest
    else c :: collapseSep false rest

/-- `main.normalize`: `re.sub(r"[-_.]+", "-", name).lower()`. -/
def normalize (name : String) : String :=
  ⟨(collapseSep false name.data).map lowerChar⟩

/-- Python `str.split("-")`: split on every single `-`, keeping empty
components. -/
def splitDash : List Char → List (List Char)
  | [] => [[]]
  | c :: rest =>
    match splitDash rest with
    | [] => [[]]
    | h :: t => if c = '-' then [] :: h :: t else (c :: h) :: t

/-- The character class `[0-9]` used by `BUILD_TAG_REGEX`. -/
def isDigitChar (c : Char) : Bool :=
  48 ≤ c.toNat ∧ c.toNat ≤ 57

/-- Decimal value of a digit run, the `int(...)` applied to the
`build_number` group. -/
def digitsToNat (l : List Char) : Nat :=
  l.foldl (fun n c => 10 * n + (c.toNat - 48)) 0

/-! ### Wheel filename parser (`db.Wheel.from_file`, `db.BuildTag.from_str`) -/

/-- Matching `BUILD_TAG_REGEX = ^(?P<build_number>[0-9]+)(?P<build_string>.*)$`
against a string.  `[0-9]+` greedily takes the leading digits; `.*` cannot
cross a newline, and `$` also matches just before a newline that ends the
string, so the match succeeds exactly when the remainder after the digits is
newline-free or consists of a newline-free part followed by one final
newline. -/
def buildTagRegexMatch (s : List Char) : Option (Nat × List Char) :=
  let digits := s.takeWhile isDigitChar
  let rest := s.drop digits.length
  if digits.isEmpty then none
  else if rest.all (fun c => c != '\n') then some (digitsToNat digits, rest)
  else if rest.getLast? == some '\n' && rest.dropLast.all (fun c => c != '\n') then
    some (digitsToNat digits, rest.dropLast)
  else none

/-- The parsing content of `BuildTag.from_str` when the tag string is not yet
in the store (the only situation in which the program parses it): the empty
string yields no build tag (`return None`), a regex match yields
`(build_number, build_string)`, and a failed match raises
`ValueError` (modelled by `Except.error`). -/
def buildTagParse (s : String) : Except Unit (Option (Nat × String)) :=
  if s = "" then .ok none
  else
    match buildTagRegexMatch s.data with
    | none => .error ()
    | some (num, rest) => .ok (some (num, ⟨rest⟩))

/-- Parsed wheel metadata: the fields that `Wheel.from_file` extracts from a
filename, with tag entities represented by their identity strings and the
build tag by `(tag, build_number, build_string)`. -/
structure WheelInfo where
  distName : String
  version : String
  build : Option (String × Nat × String)
  pythonTag : String
  abiTag : String
  platformTag : String
deriving DecidableEq

/-- Outcome of `Wheel.from_file`.  The source returns `None` both when the
segment count is wrong and when the build-tag segment is malformed, but the
two paths are structurally different (an early `return None` versus a caught
`ValueError`); the constructors keep them apart. -/
inductive WheelParse where
  | ok (w : WheelInfo)
  | notWheel
  | malformedBuildTag
deriving DecidableEq

/-- The destructuring step of `Wheel.from_file`: split the extension-free
wheel name on `-`; five components carry no build tag, six components carry
one, and any other count is not wheel-parseable. -/
def wheelSegments (wheelName : String) :
    Option (String × String × Option String × String × String × String) :=
  match (splitDash wheelName.data).map (fun l => (⟨l⟩ : String)) with
  | [n, v, p, a, pl] => some (n, v, none, p, a, pl)
  | [n, v, b, p, a, pl] => some (n, v, some b, p, a, pl)
  | _ => none

/-- Python `filename[:-4]`, the stripping of the `.whl` extension. -/
def stripLast4 (l : List Char) : List Char :=
  l.take (l.length - 4)

/-- Python `filename.endswith(".whl")`. -/
def endsWithWhl (l : List Char) : Bool :=
  l.reverse.take 4 == ['l', 'h', 'w', '.']

/-- `Wheel.from_file`: strip the `.whl` extension, split on `-`, and either
build the wheel metadata, report a wrong segment count, or report a
malformed (6-component) build tag whose `ValueError` the source catches. -/
def wheelFromFileE (filename : String) : WheelParse :=
  match wheelSegments ⟨stripLast4 filename.data⟩ with
  | none => .notWheel
  | some (n, v, none, p, a, pl) => .ok ⟨n, v, none, p, a, pl⟩
  | some (n, v, some b, p, a, pl) =>
    match buildTagParse b with
    | .error _ => .malformedBuildTag
    | .ok bt => .ok ⟨n, v, bt.map (fun x => (b, x.1, x.2)), p, a, pl⟩

/-- The value `Wheel.from_file` hands back to `File.from_info`: both failure
modes collapse to `None`. -/
def wheelFromFile (filename : String) : Option WheelInfo :=
  match wheelFromFileE filename with
  | .ok w => some w
  | _ => none

/-! ### Files (`db.File.from_info`) -/

/-- The part of a `file_info` document entry that the embedded operations
inspect. -/
structure FileInfo where
  filename : String
  url : String
  size : Nat
deriving DecidableEq

/-- A persisted `File` row with its optional owned `Wheel`. -/
structure FileRow where
  filename : String
  url : String
  size : Nat
  wheel : Option WheelInfo
deriving DecidableEq

/-- `File.from_info`: build the row, and attach wheel metadata only when the
filename ends in `.whl` and parses; parse failures leave `wheel` empty and
raise nothing. -/
def fileFromInfo (fi : FileInfo) : FileRow :=
  { filename := fi.filename
    url := fi.url
    size := fi.size
    wheel := if endsWithWhl fi.filename.data then wheelFromFile fi.filename else none }

/-! ### Projects (`db.Project.from_info`, `db.Project.update_from_info`) -/

/-- The part of a fetched project detail document that the merge inspects:
`project-status`/`project-status-reason`, the version strings, and the file
entries. -/
structure ProjectInfo where
  name : String
  status : Option String
  statusReason : Option String
  versions : List String
  files : List FileInfo
deriving DecidableEq

/-- A stored `Project` row together with its owned sets, which the source
keeps as Python sets; they are modelled as lists considered up to
membership. -/
@[ext]
structure Project where
  name : String
  lastSerial : Nat
  status : Option String
  statusReason : Option String
  versions : List String
  files : List FileRow
deriving DecidableEq

/-- The set `{f.filename for f in self.files}` of a project. -/
def filenames (p : Project) : List String :=
  p.files.map (fun f => f.filename)

/-- `Project.from_info`: build a fresh project aggregate carrying the given
serial. -/
def projectFromInfo (projectLastSerial : Nat) (info : ProjectInfo) : Project :=
  { name := info.name
    lastSerial := projectLastSerial
    status := info.status
    statusReason := info.statusReason
    versions := info.versions
    files := info.files.map fileFromInfo }

/-- `Project.update_from_info`: unconditionally overwrite status and
status_reason, union in the document's version strings that are not already
known, union in the document's files whose filename is not already known,
and finally set `last_serial` to the document's serial.  The source performs
no comparison between the stored and the incoming serial. -/
def updateFromInfo (p : Project) (projectLastSerial : Nat) (info : ProjectInfo) : Project :=
  { p with
    status := info.status
    statusReason := info.statusReason
    versions := p.versions ++ info.versions.filter (fun v => !(p.versions.contains v))
    files := p.files ++
      (info.files.filter (fun f => !((filenames p).contains f.filename))).map fileFromInfo
    lastSerial := projectLastSerial }

/-! ### Diff planner (`main.find_projects_to_update`) -/

/-- `dict.get`-style lookup in an association list (first match wins; the
dictionaries built by the planner have unique keys). -/
def alookup (k : String) : List (String × Nat) → Option Nat
  | [] => none
  | e :: rest => if e.1 = k then some e.2 else alookup k rest

/-- `dict` assignment `m[k] = v`: replace the entry in place or append. -/
def ainsert (k : String) (v : Nat) : List (String × Nat) → List (String × Nat)
  | [] => [(k, v)]
  | e :: rest => if e.1 = k then (k, v) :: rest else e :: ainsert k v rest

/-- `dict.pop(k)`: remove the entry for `k`, returning its value and the
remaining dictionary, or `none` (the `KeyError` path) when absent. -/
def apop (k : String) : List (String × Nat) → Option (Nat × List (String × Nat))
  | [] => none
  | e :: rest =>
    if e.1 = k then some (e.2, rest)
    else
      match apop k rest with
      | none => none
      | some (v, r) => some (v, e :: r)

/-- Keys of an association list. -/
def akeys (m : List (String × Nat)) : List String :=
  m.map Prod.fst

/-- The dictionary comprehension building `new_projects`: normalized remote
name mapped to its remote serial. -/
def buildRemote (remote : List (String × Nat)) : List (String × Nat) :=
  remote.foldl (fun m p => ainsert (normalize p.1) p.2 m) []

/-- The loop over the local `(name, last_serial)` rows: pop each local name
from the remote dictionary; on a hit with a strictly larger remote serial the
name goes on the update queue.  Returns the queue and the remaining
dictionary. -/
def diffLoop : List (String × Nat) → List (String × Nat) → List String × List (String × Nat)
  | [], m => ([], m)
  | e :: rest, m =>
    match apop e.1 m with
    | none => diffLoop rest m
    | some (rs, m') =>
      let r := diffLoop rest m'
      (if e.2 < rs then e.1 :: r.1 else r.1, r.2)

/-- `find_projects_to_update`, reduced to the two queues it fills: names to
update and names to add (the keys left in the dictionary after the local
pass). -/
def findProjectsToUpdate (locals : List (String × Nat)) (remote : List (String × Nat)) :
    List String × List String :=
  let r := diffLoop locals (buildRemote remote)
  (r.1, akeys r.2)

/-! ### Identity caches (`db.TagCache` and the `from_str` classmethods) -/

/-- State shared by one entity kind: the persisted rows `(key, id, payload)`,
the next id the store will assign, and the in-memory `TagCache` mapping,
whose values may be `none` because the create path caches `version.id`
before the row is flushed and the id assigned. -/
structure TagState (α : Type) where
  rows : List (String × Nat × α)
  nextId : Nat
  cache : List (String × Option Nat)

/-- `TagCache.get_id`: `dict.get(tag_str, None)`. -/
def cacheGetId : List (String × Option Nat) → String → Option Nat
  | [], _ => none
  | e :: rest, k => if e.1 = k then e.2 else cacheGetId rest k

/-- The walrus test `if (tag_id := cache.get_id(key)):` — a hit requires a
cached id that is truthy, i.e. present and nonzero. -/
def cacheHit (c : List (String × Option Nat)) (k : String) : Option Nat :=
  match cacheGetId c k with
  | some id => if id = 0 then none else some id
  | none => none

/-- `TagCache.add`: dictionary assignment. -/
def cacheAdd (c : List (String × Option Nat)) (k : String) (v : Option Nat) :
    List (String × Option Nat) :=
  match c with
  | [] => [(k, v)]
  | e :: rest => if e.1 = k then (k, v) :: rest else e :: cacheAdd rest k v

/-- The store query `select(...).filter_by(key)...scalar_one_or_none()`; the
unique constraint makes at most one row match. -/
def storeFind {α : Type} : List (String × Nat × α) → String → Option (Nat × α)
  | [], _ => none
  | r :: rest, k => if r.1 = k then some r.2 else storeFind rest k

/-- `session.get_one(Entity, id)`: whether a row with the given id exists. -/
def storeHasId {α : Type} (rows : List (String × Nat × α)) (id : Nat) : Bool :=
  rows.any (fun r => r.2.1 == id)

/-- The shared shape of `Version.from_str`, `BuildTag.from_str`,
`PythonTag.from_str`, `AbiTag.from_str` and `PlatformTag.from_str`:
`pre` is the early `return None` test (only BuildTag has one), `derive` the
kind-specific construction of the row payload (`none` models the raised
`ValueError` of a malformed build tag).  Resolution order: truthy cache hit
(then `session.get_one`, which fails if the id has no row), else store query
by unique key (populating the cache), else construct, persist, and cache —
caching `none` because the id is not yet assigned at that point. -/
def resolveTag {α : Type} (pre : String → Bool) (derive : String → Option α)
    (s : TagState α) (k : String) : Except Unit (Option Nat × TagState α) :=
  if pre k then .ok (none, s)
  else
    match cacheHit s.cache k with
    | some id =>
      if storeHasId s.rows id then .ok (some id, s) else .error ()
    | none =>
      match storeFind s.rows k with
      | some (id, _) => .ok (some id, { s with cache := cacheAdd s.cache k (some id) })
      | none =>
        match derive k with
        | none => .error ()
        | some a =>
          .ok (some s.nextId,
            { rows := s.rows ++ [(k, s.nextId, a)]
              nextId := s.nextId + 1
              cache := cacheAdd s.cache k none })

/-- `PythonTag.from_str`: no extra structure beyond the tag string. -/
def pythonTagFromStr : TagState Unit → String → Except Unit (Option Nat × TagState Unit) :=
  resolveTag (fun _ => false) (fun _ => some ())

/-- `AbiTag.from_str`: identical resolution, independent identity space. -/
def abiTagFromStr : TagState Unit → String → Except Unit (Option Nat × TagState Unit) :=
  resolveTag (fun _ => false) (fun _ => some ())

/-- `PlatformTag.from_str`: identical resolution, independent identity
space. -/
def platformTagFromStr : TagState Unit → String → Except Unit (Option Nat × TagState Unit) :=
  resolveTag (fun _ => false) (fun _ => some ())

/-- `Version.from_str`: the payload records `is_valid_vss`, computed by the
external `packaging.version.parse`, which is passed in as `validVss`. -/
def versionFromStr (validVss : String → Bool) :
    TagState Bool → String → Except Unit (Option Nat × TagState Bool) :=
  resolveTag (fun _ => false) (fun v => some (validVss v))

/-- `BuildTag.from_str`: the empty string short-circuits to `None` before any
lookup, and the payload derivation is the `BUILD_TAG_REGEX` decomposition,
whose failure raises. -/
def buildTagFromStrS : TagState (Nat × String) → String →
    Except Unit (Option Nat × TagState (Nat × String)) :=
  resolveTag (fun t => t == "")
    (fun t => (buildTagRegexMatch t.data).map (fun x => (x.1, (⟨x.2⟩ : String))))

/-- Number of persisted rows whose unique key is `k`. -/
def rowCount {α : Type} (s : TagState α) (k : String) : Nat :=
  (s.rows.filter (fun r => r.1 == k)).length

/-- Well-formedness maintained by the store: every truthy cached id belongs
to a row with the same key, row ids are the nonzero values below the next
free id, keys are unique, and the next id is nonzero (SQLite row ids start
at 1). -/
def Consistent {α : Type} (s : TagState α) : Prop :=
  (∀ k id, (k, some id) ∈ s.cache → id ≠ 0 → ∃ a, (k, id, a) ∈ s.rows) ∧
  (∀ k id a, (k, id, a) ∈ s.rows → id ≠ 0 ∧ id < s.nextId) ∧
  (s.rows.map (fun r => r.1)).Nodup ∧
  s.nextId ≠ 0

/-- The resolution contract of one `from_str` call from state `s`: a truthy
cache hit returns that id with the state untouched; any successful call
preserves consistency, returns a stable id on repetition (the second call is
already a fixpoint up to a cache refresh and adds no row), leaves exactly one
persisted row for the key whenever it returns an id, and grows the store only
when the key was absent from both cache and store, by exactly the one new
row. -/
def ResolveSpec {α : Type} (pre : String → Bool) (derive : String → Option α)
    (s : TagState α) (k : String) : Prop :=
  (∀ id, cacheHit s.cache k = some id → pre k = false →
    resolveTag pre derive s k = .ok (some id, s)) ∧
  (∀ idOpt s', resolveTag pre derive s k = .ok (idOpt, s') →
    Consistent s' ∧
    (∃ s'', resolveTag pre derive s' k = .ok (idOpt, s'') ∧ s''.rows = s'.rows ∧
      resolveTag pre derive s'' k = .ok (idOpt, s'')) ∧
    (∀ id, idOpt = some id → rowCount s' k = 1) ∧
    (s'.rows = s.rows ∨
      (cacheHit s.cache k = none ∧ storeFind s.rows k = none ∧
        ∃ a, derive k = some a ∧ s'.rows = s.rows ++ [(k, s.nextId, a)])))

/-! ### Fetch pipeline (`main.get_project_info`, `main.process_updates`) -/

/-- Observable pipeline state: the work queue of project names, the resources
taken by fetch workers whose results are still in flight, the result queue,
the documents the writer has applied, and whether the writer loop has
exited. -/
structure PipeState where
  work : List String
  inFlight : List String
  results : List String
  applied : List String
  writerDone : Bool
deriving DecidableEq

/-- Interleaved steps of the fetch workers and the single writer.

* `workerTake` — `input_queue.get(block=False)` succeeds and the fetch
  begins;
* `workerPush` — the fetch returns and `output_queue.put(project)` runs;
* `workerDrop` — the fetch raises `HTTPError` and the resource is dropped;
* `writerApply` — `project_info_queue.get(timeout=1)` yields a document and
  the writer applies it;
* `writerExitStep` — the poll times out with the result queue observed empty
  and `project_queue.empty()` observed true, and the writer breaks. -/
inductive PipeStep : PipeState → PipeState → Prop
  | workerTake (s : PipeState) (n : String) (rest : List String) :
      s.work = n :: rest →
      PipeStep s { s with work := rest, inFlight := s.inFlight ++ [n] }
  | workerPush (s : PipeState) (n : String) (rest : List String) :
      s.inFlight = n :: rest →
      PipeStep s { s with inFlight := rest, results := s.results ++ [n] }
  | workerDrop (s : PipeState) (n : String) (rest : List String) :
      s.inFlight = n :: rest →
      PipeStep s { s with inFlight := rest }
  | writerApply (s : PipeState) (n : String) (rest : List String) :
      s.writerDone = false → s.results = n :: rest →
      PipeStep s { s with results := rest, applied := s.applied ++ [n] }
  | writerExitStep (s : PipeState) :
      s.writerDone = false → s.results = [] → s.work = [] →
      PipeStep s { s with writerDone := true }

/-! ### Writer-loop progress arithmetic (`main.process_updates`) -/

/-- The batch-boundary test `num_updated_projects % 100 == 0`. -/
def batchBranch (numUpdated : Nat) : Bool :=
  numUpdated % 100 == 0

/-- `percent = num_updated_projects / num_projects * 100.0`, the divisor of
the remaining-time extrapolation `elapsed / percent * 100.0`. -/
def percent (numUpdated numProjects : Nat) : ℚ :=
  (numUpdated : ℚ) / (numProjects : ℚ) * 100

/-- One pass of the writer loop body, after the workers were started:
`poll` is the outcome of `project_info_queue.get(timeout=1)`,
`workQueueEmpty` the value of `project_queue.empty()` consulted on a
timeout.  `none` means the loop breaks; otherwise the new processed count is
returned together with the divisor of the extrapolation when the
batch-boundary branch runs (`some` exactly when the progress report — and
its division by `percent` — executes). -/
def writerIter (poll : Option Nat) (workQueueEmpty : Bool)
    (numUpdated numProjects : Nat) : Option (Nat × Option ℚ) :=
  match poll with
  | some _ =>
    let n := numUpdated + 1
    some (n, if batchBranch n then some (percent n numProjects) else none)
  | none =>
    if workQueueEmpty then none
    else some (numUpdated,
      if batchBranch numUpdated then some (percent numUpdated numProjects) else none)

/-! ### Response validation (`pypi_client.PyPIClient`) -/

/-- The metadata block of a fetched document: the declared API version and
the serial duplicated into the body. -/
structure ResponseMeta where
  apiMajor : Nat
  apiMinor : Nat
  lastSerial : Nat
deriving DecidableEq

/-- A fetched per-project response: the transport-level serial header and the
body's metadata block. -/
structure ProjectResponse where
  headerLastSerial : Nat
  meta : ResponseMeta
deriving DecidableEq

/-- `PyPIClient.check_meta`: assert `major == 1 and minor >= 4`, then return
the body serial. -/
def checkMeta (m : ResponseMeta) : Except String Nat :=
  if m.apiMajor = 1 ∧ 4 ≤ m.apiMinor then .ok m.lastSerial
  else .error ("Unsupported API version")

/-- The validation performed by `PyPIClient.get_project` after the transport
succeeds: run `check_meta` on the body, then assert that the body serial
equals the header serial, and hand the shared value back. -/
def getProjectSerial (r : ProjectResponse) : Except String Nat :=
  match checkMeta r.meta with
  | .error e => .error e
  | .ok bodyLastSerial =>
    if bodyLastSerial = r.headerLastSerial then .ok bodyLastSerial
    else .error ("Header last serial does not match body last serial")

/-! ### Concrete instances used by counterexamples and witnesses -/

/-- A stored project with `last_serial = 5` and empty owned sets. -/
def staleProject : Project := ⟨("demo"), 5, none, none, [], []⟩

/-- An update document with no versions, files or status. -/
def staleDoc : ProjectInfo := ⟨("demo"), none, none, [], []⟩

/-- A stored project with `last_serial = 1`, base of the reordering
counterexample. -/
def mergeBase : Project := ⟨("demo"), 1, none, none, [], []⟩

/-- First update document of the reordering counterexample (applied with
serial 2). -/
def mergeDocA : ProjectInfo := ⟨("demo"), some ("archived"), none, [("1.0")], []⟩

/-- Second update document of the reordering counterexample (applied with
serial 3). -/
def mergeDocB : ProjectInfo := ⟨("demo"), none, none, [("2.0")], []⟩

/-- Pipeline start: one queued resource, nothing fetched. -/
def pipeInit : PipeState := ⟨[("numpy")], [], [], [], false⟩

/-- The lone worker has taken the resource; its fetch is in flight. -/
def pipeTaken : PipeState := ⟨[], [("numpy")], [], [], false⟩

/-- The writer has timed out, seen both queues empty, and exited while the
fetch is still in flight. -/
def pipeExited : PipeState := ⟨[], [("numpy")], [], [], true⟩

/-- The worker has pushed its result after the writer exited: the document
sits in the result queue and is never applied. -/
def pipeLost : PipeState := ⟨[], [], [("numpy")], [], true⟩

/-- An idle pipeline about to exit, used by the exit-condition witness. -/
def pipeIdle : PipeState := ⟨[], [], [], [], false⟩

/-- The idle pipeline after the writer exited. -/
def pipeIdleDone : PipeState := ⟨[], [], [], [], true⟩

/-- An empty tag store whose next row id is 1. -/
def tagState0 : TagState Unit := ⟨[], 1, []⟩

/-!
## Theorems

One theorem (plus counterexample/witness where required) per claim,
supported by helper lemmas about the embedded operations.
-/

/-! ### Helper lemmas: project merge -/

theorem fileFromInfo_filename (f : FileInfo) : (fileFromInfo f).filename = f.filename := rfl

theorem mem_versions_updateFromInfo (p : Project) (s : Nat) (d : ProjectInfo) (v : String) :
    v ∈ (updateFromInfo p s d).versions ↔ v ∈ p.versions ∨ v ∈ d.versions := by
  by_cases h : v ∈ p.versions <;>
    simp [updateFromInfo, List.mem_filter, h]

theorem mem_filenames_updateFromInfo (p : Project) (s : Nat) (d : ProjectInfo) (fn : String) :
    fn ∈ filenames (updateFromInfo p s d) ↔
      fn ∈ filenames p ∨ fn ∈ d.files.map (fun f => f.filename) := by
  show fn ∈ (p.files ++
      (d.files.filter (fun f => !((filenames p).contains f.filename))).map fileFromInfo).map
        (fun f => f.filename) ↔ _
  rw [List.map_append, List.mem_append, List.map_map]
  constructor
  · rintro (h | h)
    · exact Or.inl h
    · rw [List.mem_map] at h
      obtain ⟨f, hf, rfl⟩ := h
      rw [List.mem_filter] at hf
      exact Or.inr (List.mem_map_of_mem _ hf.1)
  · rintro (h | h)
    · exact Or.inl h
    · rw [List.mem_map] at h
      obtain ⟨f, hf, rfl⟩ := h
      by_cases hin : f.filename ∈ filenames p
      · exact Or.inl hin
      · refine Or.inr ?_
        rw [List.mem_map]
        exact ⟨f, List.mem_filter.mpr ⟨hf, by simp [hin]⟩, rfl⟩

theorem updateFromInfo_eq_self (q : Project) (s : Nat) (d : ProjectInfo)
    (h1 : q.status = d.status) (h2 : q.statusReason = d.statusReason) (h3 : q.lastSerial = s)
    (hv : ∀ v ∈ d.versions, v ∈ q.versions)
    (hf : ∀ f ∈ d.files, f.filename ∈ filenames q) :
    updateFromInfo q s d = q := by
  have hv' : d.versions.filter (fun v => !(q.versions.contains v)) = [] := by
    rw [List.filter_eq_nil_iff]
    intro a ha
    simp [hv a ha]
  have hf' : d.files.filter (fun f => !((filenames q).contains f.filename)) = [] := by
    rw [List.filter_eq_nil_iff]
    intro a ha
    simp [hf a ha]
  ext : 1
  case name => rfl
  case lastSerial => exact h3.symm
  case status => exact h1.symm
  case statusReason => exact h2.symm
  case versions =>
    show q.versions ++ d.versions.filter (fun v => !(q.versions.contains v)) = q.versions
    rw [hv', List.append_nil]
  case files =>
    show q.files ++
      (d.files.filter (fun f => !((filenames q).contains f.filename))).map fileFromInfo = q.files
    rw [hf']
    simp

theorem updateFromInfo_idem (p : Project) (s : Nat) (d : ProjectInfo) :
    updateFromInfo (updateFromInfo p s d) s d = updateFromInfo p s d := by
  apply updateFromInfo_eq_self _ _ _ rfl rfl rfl
  · intro v hv
    exact (mem_versions_updateFromInfo p s d v).mpr (Or.inr hv)
  · intro f hf
    exact (mem_filenames_updateFromInfo p s d f.filename).mpr
      (Or.inr (List.mem_map_of_mem _ hf))

/-! ### C1 — monotonic serial invariant -/

/-- C1 counterexample: for the stored project with `last_serial = 5`,
applying an update document with serial `3 ≤ 5` is not a no-op — the project
changes and its `last_serial` decreases to 3, so the stale merge is applied
rather than rejected. -/
theorem C1_counterexample :
    3 ≤ staleProject.lastSerial ∧
    updateFromInfo staleProject 3 staleDoc ≠ staleProject ∧
    (updateFromInfo staleProject 3 staleDoc).lastSerial < staleProject.lastSerial := by
  decide

/-- C1 (amended): both merge entry points write the document's serial
unconditionally — `Project.update_from_info` and `Project.from_info` always
set `last_serial` to the incoming serial, so a document with a strictly
greater serial does update it, but a document with a smaller or equal serial
is applied as well (no staleness rejection exists in the merge; monotonicity
relies on the diff planner only enqueuing strictly newer projects). -/
theorem C1_last_serial_always_written :
    ∀ (p : Project) (s : Nat) (d : ProjectInfo),
      (updateFromInfo p s d).lastSerial = s ∧ (projectFromInfo s d).lastSerial = s :=
  fun _ _ _ => ⟨rfl, rfl⟩

/-! ### C2 — merge idempotence and commutativity -/

/-- C2 counterexample: with the stored serial 1, the documents applied with
serials 2 and 3 each individually pass the monotonicity condition, yet the
two application orders end in different states (`last_serial` 3 versus 2,
and different statuses), so the full Project state does not converge. -/
theorem C2_counterexample :
    mergeBase.lastSerial < 2 ∧ mergeBase.lastSerial < 3 ∧
    updateFromInfo (updateFromInfo mergeBase 2 mergeDocA) 3 mergeDocB ≠
      updateFromInfo (updateFromInfo mergeBase 3 mergeDocB) 2 mergeDocA := by
  decide

/-- C2 (amended): applying the same update document twice equals applying it
once (full-state idempotence), and applying two documents in either order
converges to the same version-string set and the same filename set; but
`last_serial` (with status/status_reason) is that of the last-applied
document, so the full state agrees between the two orders only when the
documents agree on those fields. -/
theorem C2_merge_idempotent_and_set_commutative :
    ∀ (p : Project) (s1 s2 : Nat) (d1 d2 : ProjectInfo),
      updateFromInfo (updateFromInfo p s1 d1) s1 d1 = updateFromInfo p s1 d1 ∧
      (∀ v, v ∈ (updateFromInfo (updateFromInfo p s1 d1) s2 d2).versions ↔
        v ∈ (updateFromInfo (updateFromInfo p s2 d2) s1 d1).versions) ∧
      (∀ fn, fn ∈ filenames (updateFromInfo (updateFromInfo p s1 d1) s2 d2) ↔
        fn ∈ filenames (updateFromInfo (updateFromInfo p s2 d2) s1 d1)) ∧
      (updateFromInfo (updateFromInfo p s1 d1) s2 d2).lastSerial = s2 ∧
      (updateFromInfo (updateFromInfo p s2 d2) s1 d1).lastSerial = s1 := by
  intro p s1 s2 d1 d2
  refine ⟨updateFromInfo_idem p s1 d1, ?_, ?_, rfl, rfl⟩
  · intro v
    simp only [mem_versions_updateFromInfo]
    tauto
  · intro fn
    simp only [mem_filenames_updateFromInfo]
    tauto

/-! ### C3 — writer termination versus in-flight fetches -/

/-- C3 counterexample: an interleaving in which the worker takes the last
work item, the writer's poll then times out with both queues observed empty
and the writer exits, and only afterwards the worker pushes its document —
reaching a state where the writer is done yet a pushed document sits
unapplied in the result queue. -/
theorem C3_counterexample :
    Relation.ReflTransGen PipeStep pipeInit pipeLost ∧
    pipeLost.writerDone = true ∧ pipeLost.results = [("numpy")] ∧ pipeLost.applied = [] := by
  refine ⟨?_, rfl, rfl, rfl⟩
  have h1 : PipeStep pipeInit pipeTaken := PipeStep.workerTake pipeInit ("numpy") [] rfl
  have h2 : PipeStep pipeTaken pipeExited := PipeStep.writerExitStep pipeTaken rfl rfl rfl
  have h3 : PipeStep pipeExited pipeLost := PipeStep.workerPush pipeExited ("numpy") [] rfl
  exact ((Relation.ReflTransGen.single h1).tail h2).tail h3

/-- C3 (amended): the writer's exit step does require observing the result
queue empty and the work queue empty, so it never exits while unclaimed work
or queued results remain at the moment of the check; but that check cannot
see an in-flight fetch, and `C3_counterexample` exhibits an interleaving
where the writer exits while a worker still holds a taken resource, whose
later-pushed document is never applied. -/
theorem C3_writer_exit_requires_empty_queues :
    ∀ s t : PipeState, PipeStep s t → s.writerDone = false → t.writerDone = true →
      s.results = [] ∧ s.work = [] := by
  intro s t h hs ht
  cases h <;> simp_all

/-- C3 witness: the exit-condition theorem applied to a concrete exit step
from the idle pipeline. -/
theorem C3_writer_exit_requires_empty_queues_witness :
    pipeIdle.results = [] ∧ pipeIdle.work = [] :=
  C3_writer_exit_requires_empty_queues pipeIdle pipeIdleDone
    (PipeStep.writerExitStep pipeIdle rfl rfl rfl) rfl rfl

/-! ### C5 — wheel name parser -/

/-- C5: the wheel parser is a pure function of the filename: after stripping
the extension and splitting on `-`, exactly five components yield the
role assignment with no build tag, exactly six yield it with the
build-tag component, any other count yields no wheel metadata and the file
is still stored without a wheel; the literal example parses as stated, and a
non-wheel filename is stored untouched. -/
theorem C5_wheel_name_parsing :
    (∀ (wn n v p a pl : String),
      (splitDash wn.data).map (fun l => (⟨l⟩ : String)) = [n, v, p, a, pl] →
      wheelSegments wn = some (n, v, none, p, a, pl)) ∧
    (∀ (wn n v b p a pl : String),
      (splitDash wn.data).map (fun l => (⟨l⟩ : String)) = [n, v, b, p, a, pl] →
      wheelSegments wn = some (n, v, some b, p, a, pl)) ∧
    (∀ fi : FileInfo, wheelSegments ⟨stripLast4 fi.filename.data⟩ = none →
      (fileFromInfo fi).wheel = none) ∧
    wheelFromFileE ("numpy-1.26.4-cp311-cp311-manylinux_2_17_x86_64.whl") =
      .ok ⟨("numpy"), ("1.26.4"), none, ("cp311"), ("cp311"), ("manylinux_2_17_x86_64")⟩ ∧
    fileFromInfo ⟨("foo.tar.gz"), ("u"), 0⟩ = ⟨("foo.tar.gz"), ("u"), 0, none⟩ := by
  refine ⟨?_, ?_, ?_, by decide, by decide⟩
  · intro wn n v p a pl h
    unfold wheelSegments
    rw [h]
  · intro wn n v b p a pl h
    unfold wheelSegments
    rw [h]
  · intro fi h
    show (if endsWithWhl fi.filename.data then wheelFromFile fi.filename else none) = none
    split
    · simp [wheelFromFile, wheelFromFileE, h]
    · rfl

/-- C5 witness: the five-component case of the parser theorem at the literal
example filename. -/
theorem C5_wheel_name_parsing_witness :
    (splitDash ("numpy-1.26.4-cp311-cp311-manylinux_2_17_x86_64" : String).data).map
        (fun l => (⟨l⟩ : String)) =
      [("numpy"), ("1.26.4"), ("cp311"), ("cp311"), ("manylinux_2_17_x86_64")] ∧
    wheelSegments ("numpy-1.26.4-cp311-cp311-manylinux_2_17_x86_64") =
      some (("numpy"), ("1.26.4"), none, ("cp311"), ("cp311"), ("manylinux_2_17_x86_64")) :=
  ⟨by decide, C5_wheel_name_parsing.1 ("numpy-1.26.4-cp311-cp311-manylinux_2_17_x86_64")
    ("numpy") ("1.26.4") ("cp311") ("cp311") ("manylinux_2_17_x86_64") (by decide)⟩

/-! ### C6 — build tag decomposition -/

/-- C6: the digit-prefix grammar decomposes `2` into build number 2 with
empty build string and `2xyz` into 2 with `xyz`; a component with no leading
digit raises the distinct malformed-build-tag error, which `Wheel.from_file`
reports differently from a wrong segment count, and the file is still
persisted with no wheel and no escaping error. -/
theorem C6_build_tag_decomposition :
    buildTagParse ("2") = .ok (some (2, (""))) ∧
    buildTagParse ("2xyz") = .ok (some (2, ("xyz"))) ∧
    buildTagParse ("abc") = .error () ∧
    wheelFromFileE ("foo-1.0-abc-py3-none-any.whl") = .malformedBuildTag ∧
    wheelFromFileE ("foo-1.0-abc-py3-none-any.whl") ≠ .notWheel ∧
    fileFromInfo ⟨("foo-1.0-abc-py3-none-any.whl"), ("u"), 0⟩ =
      ⟨("foo-1.0-abc-py3-none-any.whl"), ("u"), 0, none⟩ := by
  refine ⟨?_, ?_, ?_, ?_, ?_, ?_⟩
  · rfl
  · rfl
  · rfl
  · decide
  · decide
  · decide

/-! ### C8 — response validation -/

/-- C8: validation of a fetched document fails exactly when the body serial
differs from the header serial or the declared API version is not
`major = 1, minor ≥ 4`; on success the returned serial is the shared
header/body value. -/
theorem C8_response_validation :
    ∀ r : ProjectResponse,
      ((∃ e, getProjectSerial r = .error e) ↔
        (r.meta.lastSerial ≠ r.headerLastSerial ∨
          ¬(r.meta.apiMajor = 1 ∧ 4 ≤ r.meta.apiMinor))) ∧
      (∀ n, getProjectSerial r = .ok n ↔
        (n = r.headerLastSerial ∧ n = r.meta.lastSerial ∧
          r.meta.apiMajor = 1 ∧ 4 ≤ r.meta.apiMinor)) := by
  intro r
  by_cases hv : r.meta.apiMajor = 1 ∧ 4 ≤ r.meta.apiMinor
  · by_cases hs : r.meta.lastSerial = r.headerLastSerial
    · constructor
      · simp [getProjectSerial, checkMeta, hv, hs]
      · intro n
        simp [getProjectSerial, checkMeta, hv, hs]
        exact eq_comm
    · constructor
      · simp [getProjectSerial, checkMeta, hv, hs]
      · intro n
        simp [getProjectSerial, checkMeta, hv, hs]
        intro hn hn'
        exact absurd (hn'.symm.trans hn) hs
  · constructor
    · simp [getProjectSerial, checkMeta, hv]
    · intro n
      simp [getProjectSerial, checkMeta, hv]

/-! ### C9 — progress extrapolation divides by zero -/

/-- C9: the batch-boundary branch runs whenever the processed count is
divisible by 100 — including at count 0, which is reached when the first
result-queue poll times out while the work queue is still non-empty; there
the divisor `percent = 0/total*100` is zero, so the remaining-time
extrapolation `elapsed / percent` divides by zero (a `ZeroDivisionError` in
the source), contrary to the claim; with the work queue empty the loop
breaks before the branch. -/
theorem C9_progress_division_by_zero :
    writerIter none false 0 1000 = some (0, some (percent 0 1000)) ∧
    percent 0 1000 = 0 ∧
    batchBranch 0 = true ∧
    writerIter none true 0 1000 = none := by
  refine ⟨rfl, ?_, rfl, rfl⟩
  simp [percent]

/-! ### C10 — empty build-tag segment -/

/-- C10: an empty build-tag component is treated as "no build tag":
`BuildTag.from_str` returns `None` for the empty string without raising and
without touching the store, so a six-component wheel name with an empty
build segment still produces a wheel whose build tag is absent, and the file
is stored with that wheel. -/
theorem C10_empty_build_tag_segment :
    buildTagParse ("") = .ok none ∧
    (∀ st : TagState (Nat × String), buildTagFromStrS st ("") = .ok (none, st)) ∧
    wheelFromFileE ("foo-1.0--py3-none-any.whl") =
      .ok ⟨("foo"), ("1.0"), none, ("py3"), ("none"), ("any")⟩ ∧
    (fileFromInfo ⟨("foo-1.0--py3-none-any.whl"), ("u"), 0⟩).wheel =
      some ⟨("foo"), ("1.0"), none, ("py3"), ("none"), ("any")⟩ := by
  refine ⟨?_, ?_, ?_, ?_⟩
  · rfl
  · intro st
    rfl
  · decide
  · decide

/-! ### Helper lemmas: diff-planner association lists -/

theorem alookup_none_not_mem (k : String) (m : List (String × Nat))
    (h : alookup k m = none) : ∀ v, (k, v) ∉ m := by
  induction m with
  | nil => simp
  | cons e rest ih =>
    intro v hv
    rw [List.mem_cons] at hv
    by_cases he : e.1 = k
    · simp [alookup, he] at h
    · rcases hv with hv | hv
      · exact he (by rw [← hv])
      · exact ih (by simpa [alookup, he] using h) v hv

theorem alookup_mem (k : String) (v : Nat) (m : List (String × Nat))
    (h : alookup k m = some v) : (k, v) ∈ m := by
  induction m with
  | nil => simp [alookup] at h
  | cons e rest ih =>
    by_cases he : e.1 = k
    · simp only [alookup] at h
      rw [if_pos he] at h
      injection h with h1
      rw [List.mem_cons]
      left
      obtain ⟨n, w⟩ := e
      simp only at he h1
      rw [he, h1]
    · rw [List.mem_cons]
      exact Or.inr (ih (by simpa [alookup, he] using h))

theorem alookup_none_of_not_key (k : String) (m : List (String × Nat))
    (h : k ∉ akeys m) : alookup k m = none := by
  cases hl : alookup k m with
  | none => rfl
  | some v =>
    exact absurd (List.mem_map_of_mem Prod.fst (alookup_mem k v m hl)) h

theorem mem_alookup (k : String) (v : Nat) (m : List (String × Nat))
    (hm : (akeys m).Nodup) (h : (k, v) ∈ m) : alookup k m = some v := by
  induction m with
  | nil => simp at h
  | cons e rest ih =>
    have hmc : e.1 ∉ akeys rest ∧ (akeys rest).Nodup := by
      rw [show akeys (e :: rest) = e.1 :: akeys rest from rfl, List.nodup_cons] at hm
      exact hm
    rw [List.mem_cons] at h
    rcases h with h | h
    · rw [← h]
      simp [alookup]
    · by_cases he : e.1 = k
      · refine absurd ?_ hmc.1
        rw [he]
        exact List.mem_map_of_mem Prod.fst h
      · simpa [alookup, he] using ih hmc.2 h

theorem apop_none_alookup (k : String) (m : List (String × Nat))
    (h : apop k m = none) : alookup k m = none := by
  induction m with
  | nil => rfl
  | cons e rest ih =>
    by_cases he : e.1 = k
    · simp [apop, he] at h
    · cases hrest : apop k rest with
      | none => simpa [alookup, he] using ih hrest
      | some vr =>
        obtain ⟨w, r⟩ := vr
        simp [apop, he, hrest] at h

theorem apop_some_lookup (k : String) (v : Nat) (m m' : List (String × Nat))
    (h : apop k m = some (v, m')) : alookup k m = some v := by
  induction m generalizing m' with
  | nil => simp [apop] at h
  | cons e rest ih =>
    by_cases he : e.1 = k
    · simp only [apop] at h
      rw [if_pos he] at h
      injection h with h1
      injection h1 with h2 h3
      simp [alookup, he, h2]
    · cases hrest : apop k rest with
      | none => simp [apop, he, hrest] at h
      | some vr =>
        obtain ⟨w, r⟩ := vr
        simp only [apop, he, if_false, hrest] at h
        injection h with h1
        injection h1 with h2 h3
        rw [h2] at hrest
        simpa [alookup, he] using ih r hrest

theorem apop_some_sublist (k : String) (v : Nat) (m m' : List (String × Nat))
    (h : apop k m = some (v, m')) : List.Sublist m' m := by
  induction m generalizing m' with
  | nil => simp [apop] at h
  | cons e rest ih =>
    by_cases he : e.1 = k
    · simp only [apop] at h
      rw [if_pos he] at h
      injection h with h1
      injection h1 with h2 h3
      rw [← h3]
      exact List.sublist_cons_self e rest
    · cases hrest : apop k rest with
      | none => simp [apop, he, hrest] at h
      | some vr =>
        obtain ⟨w, r⟩ := vr
        simp only [apop, he, if_false, hrest] at h
        injection h with h1
        injection h1 with h2 h3
        rw [h2] at hrest
        rw [← h3]
        exact List.Sublist.cons₂ e (ih r hrest)

theorem apop_keys_nodup (k : String) (v : Nat) (m m' : List (String × Nat))
    (h : apop k m = some (v, m')) (hm : (akeys m).Nodup) : (akeys m').Nodup :=
  hm.sublist ((apop_some_sublist k v m m' h).map Prod.fst)

theorem apop_some_mem_of_ne (k : String) (v : Nat) (m m' : List (String × Nat))
    (h : apop k m = some (v, m')) : ∀ e ∈ m, e.1 ≠ k → e ∈ m' := by
  induction m generalizing m' with
  | nil => simp [apop] at h
  | cons e rest ih =>
    by_cases he : e.1 = k
    · simp only [apop] at h
      rw [if_pos he] at h
      injection h with h1
      injection h1 with h2 h3
      intro f hf hfk
      rw [← h3]
      rcases List.mem_cons.mp hf with hf | hf
      · exact absurd (hf ▸ he) hfk
      · exact hf
    · cases hrest : apop k rest with
      | none => simp [apop, he, hrest] at h
      | some vr =>
        obtain ⟨w, r⟩ := vr
        simp only [apop, he, if_false, hrest] at h
        injection h with h1
        injection h1 with h2 h3
        rw [h2] at hrest
        intro f hf hfk
        rw [← h3]
        rcases List.mem_cons.mp hf with hf | hf
        · rw [hf]
          exact List.mem_cons_self e r
        · exact List.mem_cons_of_mem e (ih r hrest f hf hfk)

theorem apop_some_not_mem (k : String) (v : Nat) (m m' : List (String × Nat))
    (h : apop k m = some (v, m')) (hm : (akeys m).Nodup) : ∀ w, (k, w) ∉ m' := by
  induction m generalizing m' with
  | nil => simp [apop] at h
  | cons e rest ih =>
    have hmc : e.1 ∉ akeys rest ∧ (akeys rest).Nodup := by
      rw [show akeys (e :: rest) = e.1 :: akeys rest from rfl, List.nodup_cons] at hm
      exact hm
    by_cases he : e.1 = k
    · simp only [apop] at h
      rw [if_pos he] at h
      injection h with h1
      injection h1 with h2 h3
      intro w hw
      rw [← h3] at hw
      refine hmc.1 ?_
      rw [he]
      exact List.mem_map_of_mem Prod.fst hw
    · cases hrest : apop k rest with
      | none => simp [apop, he, hrest] at h
      | some vr =>
        obtain ⟨u, r⟩ := vr
        simp only [apop, he, if_false, hrest] at h
        injection h with h1
        injection h1 with h2 h3
        rw [h2] at hrest
        intro w hw
        rw [← h3] at hw
        rcases List.mem_cons.mp hw with hw | hw
        · exact he (by rw [← hw])
        · exact ih r hrest hmc.2 w hw

theorem apop_some_lookup_ne (k : String) (v : Nat) (m m' : List (String × Nat))
    (h : apop k m = some (v, m')) : ∀ k', k' ≠ k → alookup k' m' = alookup k' m := by
  induction m generalizing m' with
  | nil => simp [apop] at h
  | cons e rest ih =>
    by_cases he : e.1 = k
    · simp only [apop] at h
      rw [if_pos he] at h
      injection h with h1
      injection h1 with h2 h3
      intro k' hk'
      rw [← h3]
      have hek' : ¬ e.1 = k' := by
        rw [he]
        exact fun hh => hk' hh.symm
      simp [alookup, hek']
    · cases hrest : apop k rest with
      | none => simp [apop, he, hrest] at h
      | some vr =>
        obtain ⟨u, r⟩ := vr
        simp only [apop, he, if_false, hrest] at h
        injection h with h1
        injection h1 with h2 h3
        rw [h2] at hrest
        intro k' hk'
        rw [← h3]
        by_cases hek : e.1 = k'
        · simp [alookup, hek]
        · simpa [alookup, hek] using ih r hrest k' hk'

theorem ainsert_of_lookup_none (k : String) (v : Nat) (m : List (String × Nat))
    (h : alookup k m = none) : ainsert k v m = m ++ [(k, v)] := by
  induction m with
  | nil => rfl
  | cons e rest ih =>
    by_cases he : e.1 = k
    · simp [alookup, he] at h
    · simp only [ainsert, he, if_false, List.cons_append, List.cons.injEq, true_and]
      exact ih (by simpa [alookup, he] using h)

theorem foldl_ainsert_fresh (remote : List (String × Nat)) :
    ∀ acc : List (String × Nat),
      (akeys acc ++ remote.map (fun q => normalize q.1)).Nodup →
      remote.foldl (fun m q => ainsert (normalize q.1) q.2 m) acc =
        acc ++ remote.map (fun q => (normalize q.1, q.2)) := by
  induction remote with
  | nil =>
    intro acc _
    simp
  | cons q rest ih =>
    intro acc hnd
    have hfresh : normalize q.1 ∉ akeys acc := by
      intro hmem
      rcases List.nodup_append.mp hnd with ⟨_, _, hdisj⟩
      exact hdisj hmem (by simp)
    rw [List.foldl_cons,
      ainsert_of_lookup_none _ _ _ (alookup_none_of_not_key _ _ hfresh)]
    have hkeys : akeys (acc ++ [(normalize q.1, q.2)]) = akeys acc ++ [normalize q.1] := by
      simp [akeys]
    have hnd' : (akeys (acc ++ [(normalize q.1, q.2)]) ++
        rest.map (fun q => normalize q.1)).Nodup := by
      rw [hkeys, List.append_assoc]
      simpa [List.append_assoc] using hnd
    rw [ih (acc ++ [(normalize q.1, q.2)]) hnd']
    simp

theorem buildRemote_eq (remote : List (String × Nat))
    (hr : (remote.map (fun q => normalize q.1)).Nodup) :
    buildRemote remote = remote.map (fun q => (normalize q.1, q.2)) := by
  have h := foldl_ainsert_fresh remote [] (by simpa [akeys] using hr)
  simpa [buildRemote] using h

theorem diffLoop_snd_mem (locals : List (String × Nat)) :
    ∀ m : List (String × Nat), (akeys m).Nodup →
      ∀ e, e ∈ (diffLoop locals m).2 ↔ e ∈ m ∧ e.1 ∉ locals.map Prod.fst := by
  induction locals with
  | nil =>
    intro m _ e
    simp [diffLoop]
  | cons l rest ih =>
    intro m hm e
    cases hpop : apop l.1 m with
    | none =>
      have hno := alookup_none_not_mem l.1 m (apop_none_alookup l.1 m hpop)
      simp only [diffLoop, hpop]
      rw [ih m hm e]
      constructor
      · rintro ⟨hme, hnin⟩
        refine ⟨hme, ?_⟩
        simp only [List.map_cons, List.mem_cons]
        rintro (h | h)
        · exact hno e.2 (by rw [← h]; exact hme)
        · exact hnin h
      · rintro ⟨hme, hnin⟩
        exact ⟨hme, fun h => hnin (by simp [h])⟩
    | some vr =>
      obtain ⟨rs, m'⟩ := vr
      simp only [diffLoop, hpop]
      rw [ih m' (apop_keys_nodup l.1 rs m m' hpop hm) e]
      constructor
      · rintro ⟨hme, hnin⟩
        refine ⟨(apop_some_sublist l.1 rs m m' hpop).subset hme, ?_⟩
        simp only [List.map_cons, List.mem_cons]
        rintro (h | h)
        · exact apop_some_not_mem l.1 rs m m' hpop hm e.2 (by rw [← h]; exact hme)
        · exact hnin h
      · rintro ⟨hme, hnin⟩
        have h1 : e.1 ≠ l.1 := fun h => hnin (by simp [h])
        exact ⟨apop_some_mem_of_ne l.1 rs m m' hpop e hme h1,
          fun h => hnin (by simp [h])⟩

theorem diffLoop_fst_mem (locals : List (String × Nat)) :
    ∀ m : List (String × Nat), (akeys m).Nodup → (locals.map Prod.fst).Nodup →
      ∀ k, k ∈ (diffLoop locals m).1 ↔
        ∃ ls rs, (k, ls) ∈ locals ∧ alookup k m = some rs ∧ ls < rs := by
  induction locals with
  | nil =>
    intro m _ _ k
    simp [diffLoop]
  | cons l rest ih =>
    intro m hm hl k
    have hlc : l.1 ∉ rest.map Prod.fst ∧ (rest.map Prod.fst).Nodup := by
      rw [show (l :: rest).map Prod.fst = l.1 :: rest.map Prod.fst from rfl,
        List.nodup_cons] at hl
      exact hl
    cases hpop : apop l.1 m with
    | none =>
      have hnone := apop_none_alookup l.1 m hpop
      simp only [diffLoop, hpop]
      rw [ih m hm hlc.2 k]
      constructor
      · rintro ⟨ls, rs, h1, h2, h3⟩
        exact ⟨ls, rs, List.mem_cons_of_mem l h1, h2, h3⟩
      · rintro ⟨ls, rs, h1, h2, h3⟩
        rcases List.mem_cons.mp h1 with h1 | h1
        · have hkl : k = l.1 := congrArg Prod.fst h1
          rw [hkl, hnone] at h2
          simp at h2
        · exact ⟨ls, rs, h1, h2, h3⟩
    | some vr =>
      obtain ⟨rs0, m'⟩ := vr
      simp only [diffLoop, hpop]
      have hrec := ih m' (apop_keys_nodup l.1 rs0 m m' hpop hm) hlc.2 k
      by_cases hk : k = l.1
      · subst hk
        have hku : l.1 ∉ (diffLoop rest m').1 := by
          rw [hrec]
          rintro ⟨ls, rs, h1, _, _⟩
          have h1' := List.mem_map_of_mem Prod.fst h1
          exact hlc.1 h1'
        have hlook := apop_some_lookup l.1 rs0 m m' hpop
        constructor
        · intro hmem
          by_cases hcond : l.2 < rs0
          · exact ⟨l.2, rs0, by exact List.mem_cons_self l rest, hlook, hcond⟩
          · rw [if_neg hcond] at hmem
            exact absurd hmem hku
        · rintro ⟨ls, rs, h1, h2, h3⟩
          rcases List.mem_cons.mp h1 with h1 | h1
          · have hls : ls = l.2 := congrArg Prod.snd h1
            rw [hlook] at h2
            injection h2 with h2
            rw [if_pos (by rw [← hls, h2]; exact h3)]
            exact List.mem_cons_self l.1 _
          · have h1' := List.mem_map_of_mem Prod.fst h1
            exact absurd h1' hlc.1
      · have hlookeq := apop_some_lookup_ne l.1 rs0 m m' hpop k hk
        constructor
        · intro hmem
          have hmem' : k ∈ (diffLoop rest m').1 := by
            by_cases hcond : l.2 < rs0
            · rw [if_pos hcond] at hmem
              rcases List.mem_cons.mp hmem with h | h
              · exact absurd h hk
              · exact h
            · rwa [if_neg hcond] at hmem
          obtain ⟨ls, rs, h1, h2, h3⟩ := hrec.mp hmem'
          refine ⟨ls, rs, List.mem_cons_of_mem l h1, ?_, h3⟩
          rw [← hlookeq]
          exact h2
        · rintro ⟨ls, rs, h1, h2, h3⟩
          rcases List.mem_cons.mp h1 with h1 | h1
          · exact absurd (congrArg Prod.fst h1) hk
          · have hmem' : k ∈ (diffLoop rest m').1 := by
              refine hrec.mpr ⟨ls, rs, h1, ?_, h3⟩
              rw [hlookeq]
              exact h2
            by_cases hcond : l.2 < rs0
            · rw [if_pos hcond]
              exact List.mem_cons_of_mem _ hmem'
            · rwa [if_neg hcond]

/-! ### C7 — diff planner partitions -/

/-- C7: after normalizing every remote name, the planner partitions the
normalized remote names into three disjoint classes: to-add exactly those
absent locally, to-update exactly those whose local serial is strictly less
than the remote serial, and the rest (remote names present locally with
local serial at least the remote serial) unchanged; on local
`{a : 5, b : 3}` and remote `{A : 5, B : 4, C : 1}` this yields
to-update `[b]` and to-add `[c]`. -/
theorem C7_diff_planner (locals remote : List (String × Nat))
    (hl : (locals.map Prod.fst).Nodup)
    (hr : (remote.map (fun q => normalize q.1)).Nodup) :
    (∀ k, k ∈ (findProjectsToUpdate locals remote).2 ↔
      k ∈ remote.map (fun q => normalize q.1) ∧ k ∉ locals.map Prod.fst) ∧
    (∀ k, k ∈ (findProjectsToUpdate locals remote).1 ↔
      ∃ ls rs, (k, ls) ∈ locals ∧
        (k, rs) ∈ remote.map (fun q => (normalize q.1, q.2)) ∧ ls < rs) ∧
    (∀ k, ¬(k ∈ (findProjectsToUpdate locals remote).1 ∧
      k ∈ (findProjectsToUpdate locals remote).2)) ∧
    (∀ k rs, (k, rs) ∈ remote.map (fun q => (normalize q.1, q.2)) →
      k ∉ (findProjectsToUpdate locals remote).1 →
      k ∉ (findProjectsToUpdate locals remote).2 →
      ∃ ls, (k, ls) ∈ locals ∧ rs ≤ ls) ∧
    findProjectsToUpdate [(("a"), 5), (("b"), 3)] [(("A"), 5), (("B"), 4), (("C"), 1)] =
      ([("b")], [("c")]) := by
  have hb := buildRemote_eq remote hr
  have hkeys : akeys (buildRemote remote) = remote.map (fun q => normalize q.1) := by
    rw [hb]
    simp [akeys]
  have hknd : (akeys (buildRemote remote)).Nodup := by
    rw [hkeys]
    exact hr
  have hsnd : (findProjectsToUpdate locals remote).2 =
      akeys (diffLoop locals (buildRemote remote)).2 := rfl
  have hfst : (findProjectsToUpdate locals remote).1 =
      (diffLoop locals (buildRemote remote)).1 := rfl
  have hAdd : ∀ k, k ∈ (findProjectsToUpdate locals remote).2 ↔
      k ∈ remote.map (fun q => normalize q.1) ∧ k ∉ locals.map Prod.fst := by
    intro k
    rw [hsnd]
    constructor
    · intro hk
      rw [akeys, List.mem_map] at hk
      obtain ⟨e, he, rfl⟩ := hk
      rw [diffLoop_snd_mem locals _ hknd e] at he
      refine ⟨?_, he.2⟩
      rw [← hkeys]
      exact List.mem_map_of_mem Prod.fst he.1
    · rintro ⟨hk1, hk2⟩
      rw [← hkeys, akeys, List.mem_map] at hk1
      obtain ⟨e, he, hek⟩ := hk1
      rw [akeys, List.mem_map]
      refine ⟨e, ?_, hek⟩
      rw [diffLoop_snd_mem locals _ hknd e]
      refine ⟨he, ?_⟩
      rw [hek]
      exact hk2
  have hUpd : ∀ k, k ∈ (findProjectsToUpdate locals remote).1 ↔
      ∃ ls rs, (k, ls) ∈ locals ∧
        (k, rs) ∈ remote.map (fun q => (normalize q.1, q.2)) ∧ ls < rs := by
    intro k
    rw [hfst, diffLoop_fst_mem locals _ hknd hl k]
    constructor
    · rintro ⟨ls, rs, h1, h2, h3⟩
      refine ⟨ls, rs, h1, ?_, h3⟩
      have hmem := alookup_mem _ _ _ h2
      rwa [hb] at hmem
    · rintro ⟨ls, rs, h1, h2, h3⟩
      refine ⟨ls, rs, h1, ?_, h3⟩
      apply mem_alookup _ _ _ hknd
      rwa [← hb] at h2
  refine ⟨hAdd, hUpd, ?_, ?_, by decide⟩
  · rintro k ⟨hu, ha⟩
    obtain ⟨ls, rs, h1, _, _⟩ := (hUpd k).mp hu
    have h1' := List.mem_map_of_mem Prod.fst h1
    exact ((hAdd k).mp ha).2 h1'
  · intro k rs hmem hnu hna
    have hknames : k ∈ remote.map (fun q => normalize q.1) := by
      rw [List.mem_map] at hmem
      obtain ⟨q, hq, heq⟩ := hmem
      rw [List.mem_map]
      exact ⟨q, hq, congrArg Prod.fst heq⟩
    have hkloc : k ∈ locals.map Prod.fst := by
      by_contra hcon
      exact hna ((hAdd k).mpr ⟨hknames, hcon⟩)
    rw [List.mem_map] at hkloc
    obtain ⟨e, he, hek⟩ := hkloc
    refine ⟨e.2, ?_, ?_⟩
    · rw [← hek]
      exact he
    · by_contra hcon
      rw [Nat.not_le] at hcon
      refine hnu ((hUpd k).mpr ⟨e.2, rs, ?_, hmem, hcon⟩)
      rw [← hek]
      exact he

/-- C7 witness: the planner theorem applied to the literal example, with the
to-update characterization evaluated at the name `b`. -/
theorem C7_diff_planner_witness :
    (([(("a"), 5), (("b"), 3)] : List (String × Nat)).map Prod.fst).Nodup ∧
    (("b") ∈ (findProjectsToUpdate [(("a"), 5), (("b"), 3)]
        [(("A"), 5), (("B"), 4), (("C"), 1)]).1 ↔
      ∃ ls rs, (("b"), ls) ∈ [(("a"), 5), (("b"), 3)] ∧
        (("b"), rs) ∈ ([(("A"), 5), (("B"), 4), (("C"), 1)] : List (String × Nat)).map
          (fun q => (normalize q.1, q.2)) ∧ ls < rs) :=
  ⟨by decide,
    (C7_diff_planner [(("a"), 5), (("b"), 3)] [(("A"), 5), (("B"), 4), (("C"), 1)]
      (by decide) (by decide)).2.1 ("b")⟩

/-! ### Helper lemmas: identity-cache resolution -/

theorem cacheGetId_mem (c : List (String × Option Nat)) (k : String) (id : Nat)
    (h : cacheGetId c k = some id) : (k, some id) ∈ c := by
  induction c with
  | nil => simp [cacheGetId] at h
  | cons e rest ih =>
    by_cases he : e.1 = k
    · simp only [cacheGetId] at h
      rw [if_pos he] at h
      rw [List.mem_cons]
      left
      obtain ⟨n, w⟩ := e
      simp only at he h
      rw [he, h]
    · rw [List.mem_cons]
      refine Or.inr (ih ?_)
      simpa [cacheGetId, he] using h

theorem cacheHit_eq_some (c : List (String × Option Nat)) (k : String) (id : Nat)
    (h : cacheHit c k = some id) : cacheGetId c k = some id ∧ id ≠ 0 := by
  unfold cacheHit at h
  cases hg : cacheGetId c k with
  | none =>
    rw [hg] at h
    simp at h
  | some j =>
    rw [hg] at h
    by_cases hj : j = 0
    · simp [hj] at h
    · simp only [hj, if_false, Option.some.injEq] at h
      rw [← h]
      exact ⟨rfl, hj⟩

theorem cacheGetId_cacheAdd_self (c : List (String × Option Nat)) (k : String)
    (v : Option Nat) : cacheGetId (cacheAdd c k v) k = v := by
  induction c with
  | nil => simp [cacheAdd, cacheGetId]
  | cons e rest ih =>
    by_cases he : e.1 = k
    · simp [cacheAdd, cacheGetId, he]
    · simpa [cacheAdd, cacheGetId, he] using ih

theorem cacheHit_of_getId (c : List (String × Option Nat)) (k : String) (id : Nat)
    (hg : cacheGetId c k = some id) (h0 : id ≠ 0) : cacheHit c k = some id := by
  unfold cacheHit
  rw [hg]
  simp [h0]

theorem cacheHit_getId_none (c : List (String × Option Nat)) (k : String)
    (hg : cacheGetId c k = none) : cacheHit c k = none := by
  unfold cacheHit
  rw [hg]

theorem mem_cacheAdd (c : List (String × Option Nat)) (k : String) (v : Option Nat)
    (e : String × Option Nat) (he : e ∈ cacheAdd c k v) : e = (k, v) ∨ e ∈ c := by
  induction c with
  | nil => simpa [cacheAdd] using he
  | cons f rest ih =>
    by_cases hf : f.1 = k
    · rw [cacheAdd] at he
      rw [if_pos hf] at he
      rcases List.mem_cons.mp he with h | h
      · exact Or.inl h
      · exact Or.inr (List.mem_cons_of_mem f h)
    · rw [cacheAdd] at he
      rw [if_neg hf] at he
      rcases List.mem_cons.mp he with h | h
      · exact Or.inr (h ▸ List.mem_cons_self f rest)
      · rcases ih h with h' | h'
        · exact Or.inl h'
        · exact Or.inr (List.mem_cons_of_mem f h')

theorem storeFind_some_mem {α : Type} (rows : List (String × Nat × α)) (k : String)
    (id : Nat) (a : α) (h : storeFind rows k = some (id, a)) : (k, id, a) ∈ rows := by
  induction rows with
  | nil => simp [storeFind] at h
  | cons r rest ih =>
    by_cases hr : r.1 = k
    · simp only [storeFind] at h
      rw [if_pos hr] at h
      injection h with h
      rw [List.mem_cons]
      left
      obtain ⟨n, w⟩ := r
      simp only at hr h
      rw [hr, h]
    · rw [List.mem_cons]
      refine Or.inr (ih ?_)
      simpa [storeFind, hr] using h

theorem storeFind_none_not_mem {α : Type} (rows : List (String × Nat × α)) (k : String)
    (h : storeFind rows k = none) : ∀ id a, (k, id, a) ∉ rows := by
  induction rows with
  | nil => simp
  | cons r rest ih =>
    intro id a hmem
    by_cases hr : r.1 = k
    · simp [storeFind, hr] at h
    · rcases List.mem_cons.mp hmem with hm | hm
      · exact hr (by rw [← hm])
      · exact ih (by simpa [storeFind, hr] using h) id a hm

theorem storeFind_append_single {α : Type} (rows : List (String × Nat × α)) (k : String)
    (id : Nat) (a : α) (h : storeFind rows k = none) :
    storeFind (rows ++ [(k, id, a)]) k = some (id, a) := by
  induction rows with
  | nil => simp [storeFind]
  | cons r rest ih =>
    by_cases hr : r.1 = k
    · simp [storeFind, hr] at h
    · rw [List.cons_append]
      rw [show storeFind (r :: (rest ++ [(k, id, a)])) k =
        storeFind (rest ++ [(k, id, a)]) k from by simp [storeFind, hr]]
      exact ih (by simpa [storeFind, hr] using h)

theorem storeHasId_of_mem {α : Type} (rows : List (String × Nat × α)) (k : String)
    (id : Nat) (a : α) (h : (k, id, a) ∈ rows) : storeHasId rows id = true := by
  rw [storeHasId, List.any_eq_true]
  exact ⟨(k, id, a), h, by simp⟩

theorem rows_filter_nil {α : Type} (rows : List (String × Nat × α)) (k : String)
    (h : ∀ id a, (k, id, a) ∉ rows) : rows.filter (fun r => r.1 == k) = [] := by
  rw [List.filter_eq_nil_iff]
  rintro ⟨rk, rid, ra⟩ hr hek
  rw [beq_iff_eq] at hek
  exact h rid ra (hek ▸ hr)

theorem rows_filter_one {α : Type} (rows : List (String × Nat × α)) (k : String)
    (id : Nat) (a : α) (hnd : (rows.map (fun r => r.1)).Nodup)
    (hmem : (k, id, a) ∈ rows) : (rows.filter (fun r => r.1 == k)).length = 1 := by
  induction rows with
  | nil => simp at hmem
  | cons r rest ih =>
    have hc : r.1 ∉ rest.map (fun r => r.1) ∧ (rest.map (fun r => r.1)).Nodup := by
      rw [show ((r :: rest).map fun r => r.1) = r.1 :: rest.map (fun r => r.1) from rfl,
        List.nodup_cons] at hnd
      exact hnd
    rcases List.mem_cons.mp hmem with h | h
    · have hrk : r.1 = k := by rw [← h]
      have hrest : rest.filter (fun r => r.1 == k) = [] := by
        refine rows_filter_nil rest k ?_
        intro id' a' hmem'
        refine hc.1 ?_
        rw [hrk]
        exact List.mem_map_of_mem (fun r => r.1) hmem'
      rw [List.filter_cons_of_pos (by simp [hrk]), hrest]
      rfl
    · have hrk : r.1 ≠ k := by
        intro hrk
        refine hc.1 ?_
        rw [hrk]
        exact List.mem_map_of_mem (fun r => r.1) h
      rw [List.filter_cons_of_neg (by simp [hrk])]
      exact ih hc.2 h

/-! ### Helper lemmas: resolveTag branch evaluation -/

theorem resolveTag_pre {α : Type} (pre : String → Bool) (derive : String → Option α)
    (s : TagState α) (k : String) (hpre : pre k = true) :
    resolveTag pre derive s k = .ok (none, s) := by
  unfold resolveTag
  rw [hpre]
  simp

theorem resolveTag_hit {α : Type} (pre : String → Bool) (derive : String → Option α)
    (s : TagState α) (k : String) (id : Nat) (hpre : pre k = false)
    (hhit : cacheHit s.cache k = some id) (hhas : storeHasId s.rows id = true) :
    resolveTag pre derive s k = .ok (some id, s) := by
  unfold resolveTag
  rw [hpre, hhit]
  simp [hhas]

theorem resolveTag_found {α : Type} (pre : String → Bool) (derive : String → Option α)
    (s : TagState α) (k : String) (id : Nat) (a : α) (hpre : pre k = false)
    (hhit : cacheHit s.cache k = none) (hfind : storeFind s.rows k = some (id, a)) :
    resolveTag pre derive s k =
      .ok (some id, { s with cache := cacheAdd s.cache k (some id) }) := by
  unfold resolveTag
  rw [hpre, hhit]
  simp [hfind]

theorem resolveTag_create {α : Type} (pre : String → Bool) (derive : String → Option α)
    (s : TagState α) (k : String) (a : α) (hpre : pre k = false)
    (hhit : cacheHit s.cache k = none) (hfind : storeFind s.rows k = none)
    (hderive : derive k = some a) :
    resolveTag pre derive s k =
      .ok (some s.nextId,
        { rows := s.rows ++ [(k, s.nextId, a)]
          nextId := s.nextId + 1
          cache := cacheAdd s.cache k none }) := by
  unfold resolveTag
  rw [hpre, hhit]
  simp [hfind, hderive]

theorem resolveTag_derive_none {α : Type} (pre : String → Bool) (derive : String → Option α)
    (s : TagState α) (k : String) (hpre : pre k = false)
    (hhit : cacheHit s.cache k = none) (hfind : storeFind s.rows k = none)
    (hderive : derive k = none) :
    resolveTag pre derive s k = .error () := by
  unfold resolveTag
  rw [hpre, hhit]
  simp [hfind, hderive]

/-! ### C4 — idempotent identity resolution -/

/-- C4: for every entity kind (the resolver is stated for every pre-check and
payload derivation, covering Version, BuildTag, PythonTag, AbiTag and
PlatformTag) and every key, resolution from a consistent state satisfies
`ResolveSpec`: a truthy cache hit returns its id with the state untouched;
a successful call preserves consistency, repeated calls return the same id
and stop changing the rows (the second call is already a fixpoint up to one
cache refresh), exactly one row for the key is persisted whenever an id is
returned, and a new row is created only when the key was absent from both
the cache and the store. -/
theorem C4_identity_resolution {α : Type} (pre : String → Bool) (derive : String → Option α)
    (s : TagState α) (k : String) (hc : Consistent s) : ResolveSpec pre derive s k := by
  obtain ⟨hcache, hids, hnodup, hnext⟩ := hc
  constructor
  · intro id hhit hpre
    obtain ⟨hget, hid0⟩ := cacheHit_eq_some s.cache k id hhit
    obtain ⟨a, hrow⟩ := hcache k id (cacheGetId_mem s.cache k id hget) hid0
    exact resolveTag_hit pre derive s k id hpre hhit (storeHasId_of_mem s.rows k id a hrow)
  · intro idOpt s' hres
    by_cases hpret : pre k = true
    · rw [resolveTag_pre pre derive s k hpret] at hres
      injection hres with hres
      injection hres with h1 h2
      subst h1
      subst h2
      refine ⟨⟨hcache, hids, hnodup, hnext⟩,
        ⟨s, resolveTag_pre pre derive s k hpret, rfl, resolveTag_pre pre derive s k hpret⟩,
        ?_, Or.inl rfl⟩
      intro id hid
      simp at hid
    · rw [Bool.not_eq_true] at hpret
      cases hhit : cacheHit s.cache k with
      | some id =>
        obtain ⟨hget, hid0⟩ := cacheHit_eq_some s.cache k id hhit
        obtain ⟨a, hrow⟩ := hcache k id (cacheGetId_mem s.cache k id hget) hid0
        have hhas := storeHasId_of_mem s.rows k id a hrow
        rw [resolveTag_hit pre derive s k id hpret hhit hhas] at hres
        injection hres with hres
        injection hres with h1 h2
        subst h1
        subst h2
        refine ⟨⟨hcache, hids, hnodup, hnext⟩,
          ⟨s, resolveTag_hit pre derive s k id hpret hhit hhas, rfl,
            resolveTag_hit pre derive s k id hpret hhit hhas⟩, ?_, Or.inl rfl⟩
        intro id' hid'
        injection hid' with hid'
        subst hid'
        simpa [rowCount] using rows_filter_one s.rows k id a hnodup hrow
      | none =>
        cases hfind : storeFind s.rows k with
        | some p =>
          obtain ⟨id, a⟩ := p
          have hrow := storeFind_some_mem s.rows k id a hfind
          have hid0 := (hids k id a hrow).1
          rw [resolveTag_found pre derive s k id a hpret hhit hfind] at hres
          injection hres with hres
          injection hres with h1 h2
          subst h1
          subst h2
          have hfix : resolveTag pre derive
              { s with cache := cacheAdd s.cache k (some id) } k =
              .ok (some id, { s with cache := cacheAdd s.cache k (some id) }) := by
            refine resolveTag_hit pre derive _ k id hpret ?_
              (storeHasId_of_mem _ k id a hrow)
            exact cacheHit_of_getId _ k id (cacheGetId_cacheAdd_self s.cache k (some id)) hid0
          refine ⟨?_, ⟨_, hfix, rfl, hfix⟩, ?_, Or.inl rfl⟩
          · refine ⟨?_, hids, hnodup, hnext⟩
            intro k' id' hmem hid0'
            rcases mem_cacheAdd s.cache k (some id) _ hmem with he | he
            · injection he with hek hev
              injection hev with hev
              subst hek
              subst hev
              exact ⟨a, hrow⟩
            · exact hcache k' id' he hid0'
          · intro id' hid'
            injection hid' with hid'
            subst hid'
            simpa [rowCount] using rows_filter_one s.rows k id a hnodup hrow
        | none =>
          cases hderive : derive k with
          | none =>
            rw [resolveTag_derive_none pre derive s k hpret hhit hfind hderive] at hres
            simp at hres
          | some a =>
            rw [resolveTag_create pre derive s k a hpret hhit hfind hderive] at hres
            injection hres with hres
            injection hres with h1 h2
            subst h1
            subst h2
            have hnewrow : (k, s.nextId, a) ∈ s.rows ++ [(k, s.nextId, a)] :=
              List.mem_append_right _ (List.mem_singleton.mpr rfl)
            have hfilter0 : s.rows.filter (fun r => r.1 == k) = [] :=
              rows_filter_nil s.rows k (storeFind_none_not_mem s.rows k hfind)
            have hfind2 : storeFind (s.rows ++ [(k, s.nextId, a)]) k = some (s.nextId, a) :=
              storeFind_append_single s.rows k s.nextId a hfind
            have hfix1 : resolveTag pre derive
                { rows := s.rows ++ [(k, s.nextId, a)]
                  nextId := s.nextId + 1
                  cache := cacheAdd s.cache k none } k =
                .ok (some s.nextId,
                  { rows := s.rows ++ [(k, s.nextId, a)]
                    nextId := s.nextId + 1
                    cache := cacheAdd (cacheAdd s.cache k none) k (some s.nextId) }) := by
              refine resolveTag_found pre derive _ k s.nextId a hpret ?_ hfind2
              exact cacheHit_getId_none _ k (cacheGetId_cacheAdd_self s.cache k none)
            have hfix2 : resolveTag pre derive
                { rows := s.rows ++ [(k, s.nextId, a)]
                  nextId := s.nextId + 1
                  cache := cacheAdd (cacheAdd s.cache k none) k (some s.nextId) } k =
                .ok (some s.nextId,
                  { rows := s.rows ++ [(k, s.nextId, a)]
                    nextId := s.nextId + 1
                    cache := cacheAdd (cacheAdd s.cache k none) k (some s.nextId) }) := by
              refine resolveTag_hit pre derive _ k s.nextId hpret ?_
                (storeHasId_of_mem _ k s.nextId a hnewrow)
              exact cacheHit_of_getId _ k s.nextId
                (cacheGetId_cacheAdd_self (cacheAdd s.cache k none) k (some s.nextId)) hnext
            refine ⟨?_, ⟨_, hfix1, rfl, hfix2⟩, ?_, ?_⟩
            · refine ⟨?_, ?_, ?_, Nat.succ_ne_zero _⟩
              · intro k' id' hmem hid0'
                rcases mem_cacheAdd s.cache k none _ hmem with he | he
                · injection he with hek hev
                  simp at hev
                · obtain ⟨a', ha'⟩ := hcache k' id' he hid0'
                  exact ⟨a', List.mem_append_left _ ha'⟩
              · intro k' id' a' hmem
                rcases List.mem_append.mp hmem with hm | hm
                · obtain ⟨h0, hlt⟩ := hids k' id' a' hm
                  exact ⟨h0, Nat.lt_succ_of_lt hlt⟩
                · rw [List.mem_singleton] at hm
                  injection hm with hk hm
                  injection hm with hid ha
                  subst hid
                  exact ⟨hnext, Nat.lt_succ_self _⟩
              · show ((s.rows ++ [(k, s.nextId, a)]).map (fun r => r.1)).Nodup
                rw [List.map_append]
                rw [List.nodup_append]
                refine ⟨hnodup, by simp, ?_⟩
                intro x hx hxk
                simp only [List.map_cons, List.map_nil, List.mem_singleton] at hxk
                subst hxk
                rw [List.mem_map] at hx
                obtain ⟨r, hr, hrk⟩ := hx
                obtain ⟨rk, rid, ra⟩ := r
                simp only at hrk
                exact storeFind_none_not_mem s.rows x hfind rid ra (hrk ▸ hr)
            · intro id' hid'
              injection hid' with hid'
              subst hid'
              simp [rowCount, List.filter_append, hfilter0]
            · exact Or.inr ⟨rfl, rfl, a, rfl, rfl⟩

/-- C4 witness: the resolution contract instantiated at the empty consistent
store with the AbiTag-style resolver and the key `cp311`. -/
theorem C4_identity_resolution_witness :
    Consistent tagState0 ∧ ResolveSpec (fun _ => false) (fun _ => some ()) tagState0 ("cp311") :=
  ⟨⟨by simp [tagState0], by simp [tagState0], by simp [tagState0], by simp [tagState0]⟩,
    C4_identity_resolution (fun _ => false) (fun _ => some ()) tagState0 ("cp311")
      ⟨by simp [tagState0], by simp [tagState0], by simp [tagState0], by simp [tagState0]⟩⟩

end SimpleIndexDB
